import Mathlib

/-!
Shallow embedding of the GammaGL heterogeneous graph transformer layer
(`gammagl/layers/conv/hgt_conv.py`) and of the engine primitives it uses
(segment softmax, segment-sum aggregation, the Inspector argument routing),
together with theorems settling the specification claims.

Tensors are modelled over the real numbers.  A per-node feature tensor of
shape `(N, F)` becomes a function `ℕ → ℕ → ℝ` (node index, feature index);
a per-node multi-head tensor of shape `(N, H, D)` becomes `ℕ → ℕ → ℕ → ℝ`;
per-edge data is carried positionally in lists aligned with the edge list,
exactly as the vectorized code aligns rows.  An edge is a pair
`(source index, target index)`, and an edge-index pair of sequences is the
list of such pairs (column `k` of the `(2, E)` edge index).
-/

namespace GammaGL

/-! ### Generic list helpers -/

/-- Maximum of a list of reals, `0` on the empty list.  Only ever applied to
non-empty per-group score lists (each edge's own group contains it). -/
def listMax : List ℝ → ℝ
  | [] => 0
  | a :: l => l.foldl max a

theorem le_foldl_max (l : List ℝ) (a : ℝ) : a ≤ l.foldl max a := by
  induction l generalizing a with
  | nil => exact le_refl a
  | cons b l ih => exact le_trans (le_max_left a b) (ih (max a b))

theorem foldl_max_mono {a b : ℝ} (l : List ℝ) (h : a ≤ b) :
    l.foldl max a ≤ l.foldl max b := by
  induction l generalizing a b with
  | nil => exact h
  | cons c l ih => exact ih (max_le_max h (le_refl c))

theorem mem_le_foldl_max {x : ℝ} {l : List ℝ} (a : ℝ) (h : x ∈ l) :
    x ≤ l.foldl max a := by
  induction l generalizing a with
  | nil => cases h
  | cons b l ih =>
    rcases List.mem_cons.mp h with rfl | hx
    · exact le_trans (le_max_right a x) (le_foldl_max l (max a x))
    · exact ih (max a b) hx

theorem foldl_max_mem (l : List ℝ) (a : ℝ) :
    l.foldl max a = a ∨ l.foldl max a ∈ l := by
  induction l generalizing a with
  | nil => exact Or.inl rfl
  | cons b l ih =>
    rcases ih (max a b) with h | h
    · rcases max_choice a b with hab | hab
      · exact Or.inl (by simpa [hab] using h)
      · exact Or.inr (by simp [List.foldl_cons]; left; simpa [hab] using h)
    · exact Or.inr (List.mem_cons_of_mem _ h)

theorem listMax_mem {l : List ℝ} (h : l ≠ []) : listMax l ∈ l := by
  cases l with
  | nil => exact absurd rfl h
  | cons a l =>
    show l.foldl max a ∈ a :: l
    rcases foldl_max_mem l a with hm | hm
    · rw [hm]; exact List.mem_cons_self a l
    · exact List.mem_cons_of_mem _ hm

theorem le_listMax {x : ℝ} {l : List ℝ} (h : x ∈ l) : x ≤ listMax l := by
  cases l with
  | nil => cases h
  | cons a l =>
    rcases List.mem_cons.mp h with rfl | hx
    · exact le_foldl_max l x
    · exact mem_le_foldl_max a hx

theorem listMax_perm {l₁ l₂ : List ℝ} (h : l₁.Perm l₂) : listMax l₁ = listMax l₂ := by
  cases l₁ with
  | nil =>
    have : l₂ = [] := h.nil_eq.symm
    simp [this]
  | cons a l =>
    have h₁ : (a :: l) ≠ [] := by simp
    have h₂ : l₂ ≠ [] := by
      intro hl
      subst hl
      exact absurd h.symm.nil_eq (by simp)
    exact le_antisymm
      (le_listMax (h.mem_iff.mp (listMax_mem h₁)))
      (le_listMax (h.symm.mem_iff.mp (listMax_mem h₂)))

/-- Filtering on the key of a keyed list commutes with re-tagging the values. -/
theorem filter_map_key {α β : Type} (l : List α) (key : α → ℕ) (val : α → β) (g : ℕ) :
    ((l.map (fun a => (key a, val a))).filter (fun p => p.1 == g)) =
      (l.filter (fun a => key a == g)).map (fun a => (key a, val a)) := by
  induction l with
  | nil => rfl
  | cons a l ih =>
    by_cases h : key a = g
    · simp [List.filter_cons, h, ih]
    · simp only [List.map_cons, List.filter_cons]
      have hb : (key a == g) = false := by simpa using h
      simp [hb, ih]

theorem sum_map_div {α : Type} (l : List α) (f : α → ℝ) (c : ℝ) :
    (l.map (fun a => f a / c)).sum = (l.map f).sum / c := by
  induction l with
  | nil => simp
  | cons a l ih => simp [ih, add_div]

/-! ### Segment softmax

`gammagl/utils/softmax.py` is not part of the covered sources; it is
modelled from the spec.  Scores tagged with their group id (the target node
index) are carried as a list of pairs, mirroring the positional alignment of
the score tensor with `target_index`. -/

/-- Sum of the values of a keyed list restricted to group `g`
(the segment-sum of the spec's Segment Reduction Primitive, op = sum). -/
def segSum (l : List (ℕ × ℝ)) (g : ℕ) : ℝ :=
  ((l.filter (fun p => p.1 == g)).map Prod.snd).sum

/-- Maximum of the values of a keyed list restricted to group `g`
(the segment-max of the spec's Segment Reduction Primitive, op = max). -/
def segMax (l : List (ℕ × ℝ)) (g : ℕ) : ℝ :=
  listMax ((l.filter (fun p => p.1 == g)).map Prod.snd)

/-- Modelled from the spec: step (2) of `segment_softmax`
(`gammagl/utils/softmax.py`, spec §4.2) — subtract the group's max from each
score and exponentiate. -/
noncomputable def expPairs (l : List (ℕ × ℝ)) : List (ℕ × ℝ) :=
  l.map (fun p => (p.1, Real.exp (p.2 - segMax l p.1)))

/-- Modelled from the spec: `segment_softmax` (`gammagl/utils/softmax.py`,
spec §4.2) on a keyed score list — steps (3) and (4): divide each
exponentiated score by its group's sum of exponentials. -/
noncomputable def softmaxPairs (l : List (ℕ × ℝ)) : List (ℕ × ℝ) :=
  (expPairs l).map (fun p => (p.1, p.2 / segSum (expPairs l) p.1))

/-- Modelled from the spec: `segment_softmax(scores, segment_ids, num_segments)`
from `gammagl/utils/softmax.py` (spec §4.2) on a flat score sequence.  The
`numSegments` argument only declares the group count (every group id lies
below it); it does not enter the per-edge values. -/
noncomputable def segment_softmax (scores : List ℝ) (gid : List ℕ)
    (numSegments : ℕ) : List ℝ :=
  (softmaxPairs (gid.zip scores)).map Prod.snd

theorem expPairs_fst (l : List (ℕ × ℝ)) :
    (expPairs l).map Prod.fst = l.map Prod.fst := by
  simp [expPairs]

theorem expPairs_pos {l : List (ℕ × ℝ)} {p : ℕ × ℝ} (h : p ∈ expPairs l) :
    0 < p.2 := by
  rcases List.mem_map.mp h with ⟨q, _, rfl⟩
  exact Real.exp_pos _

/-- Core normalization fact: within any group that actually occurs among the
group ids, the softmax outputs sum to exactly 1. -/
theorem segSum_softmaxPairs (l : List (ℕ × ℝ)) (g : ℕ)
    (hg : g ∈ l.map Prod.fst) :
    segSum (softmaxPairs l) g = 1 := by
  classical
  set E := expPairs l with hE
  -- the filtered exponentials at group g
  have hfilter : (softmaxPairs l).filter (fun p => p.1 == g) =
      (E.filter (fun p => p.1 == g)).map (fun p => (p.1, p.2 / segSum E p.1)) := by
    have := filter_map_key E Prod.fst (fun p => p.2 / segSum E p.1) g
    simpa [softmaxPairs, hE] using this
  have hmemg : ∀ p ∈ E.filter (fun p => p.1 == g), p.1 = g := by
    intro p hp
    have := (List.mem_filter.mp hp).2
    simpa using this
  -- positivity of the group's exponential sum
  have hgE : g ∈ E.map Prod.fst := by rw [expPairs_fst]; exact hg
  have hne : E.filter (fun p => p.1 == g) ≠ [] := by
    rcases List.mem_map.mp hgE with ⟨p, hp, hpg⟩
    intro hempty
    have : p ∈ E.filter (fun p => p.1 == g) :=
      List.mem_filter.mpr ⟨hp, by simp [hpg]⟩
    simp [hempty] at this
  have hpos : 0 < segSum E g := by
    apply List.sum_pos
    · intro x hx
      rcases List.mem_map.mp hx with ⟨p, hp, rfl⟩
      exact expPairs_pos (List.mem_filter.mp hp).1
    · intro hempty
      exact hne (by simpa using hempty)
  -- compute the sum
  unfold segSum
  rw [hfilter, List.map_map]
  have hcongr :
      (E.filter (fun p => p.1 == g)).map ((fun p : ℕ × ℝ => p.2) ∘ (fun p : ℕ × ℝ => (p.1, p.2 / segSum E p.1))) =
      (E.filter (fun p => p.1 == g)).map (fun p => p.2 / segSum E g) := by
    apply List.map_congr_left
    intro p hp
    simp [Function.comp, hmemg p hp]
  rw [hcongr, sum_map_div]
  exact div_self (ne_of_gt hpos)

/-! ### Per-head segment softmax

In `HGTConv.message` the score tensor has shape `(E, heads)` and
`segment_softmax` normalizes each head column independently (spec §4.5 step 4:
"conceptually, independently per head").  A per-edge row of head scores is a
function `ℕ → ℝ`; `colPairs` extracts one head column as a scalar keyed list. -/

/-- Head column `h` of a keyed list of per-head score rows. -/
def colPairs (l : List (ℕ × (ℕ → ℝ))) (h : ℕ) : List (ℕ × ℝ) :=
  l.map (fun p => (p.1, p.2 h))

/-- Modelled from the spec: step (2) of `segment_softmax` applied to an
`(E, heads)` score tensor — per head, subtract the group max and exponentiate. -/
noncomputable def expPairsH (l : List (ℕ × (ℕ → ℝ))) : List (ℕ × (ℕ → ℝ)) :=
  l.map (fun p => (p.1, fun h => Real.exp (p.2 h - segMax (colPairs l h) p.1)))

/-- Modelled from the spec: `segment_softmax` on an `(E, heads)` score tensor
(`gammagl/utils/softmax.py`, spec §4.2), each head column normalized
independently within its target group. -/
noncomputable def softmaxPairsH (l : List (ℕ × (ℕ → ℝ))) : List (ℕ × (ℕ → ℝ)) :=
  (expPairsH l).map (fun p => (p.1, fun h => p.2 h / segSum (colPairs (expPairsH l) h) p.1))

/-- Taking head column `h` commutes with the per-head exponentiation step. -/
theorem colPairs_expPairsH (l : List (ℕ × (ℕ → ℝ))) (h : ℕ) :
    colPairs (expPairsH l) h = expPairs (colPairs l h) := by
  simp [colPairs, expPairsH, expPairs, List.map_map, Function.comp]

/-- Taking head column `h` commutes with the per-head segment softmax: the
head-`h` column of the `(E, heads)` softmax is the scalar segment softmax of
the head-`h` score column. -/
theorem colPairs_softmaxPairsH (l : List (ℕ × (ℕ → ℝ))) (h : ℕ) :
    colPairs (softmaxPairsH l) h = softmaxPairs (colPairs l h) := by
  unfold softmaxPairsH softmaxPairs
  rw [← colPairs_expPairsH]
  simp [colPairs, List.map_map, Function.comp]

/-! ### The HGT layer (`gammagl/layers/conv/hgt_conv.py`)

All claims fix the dropout rate to 0 (inference); `tlx.layers.Dropout` with
rate 0 keeps every entry and rescales by `1/(1-0) = 1`, i.e. it is the
identity, which `dropout_id` records. -/

/-- `self.dropout` at construction rate 0: the identity map on each entry. -/
def dropout_id (x : ℝ) : ℝ := x

/-- `tlx.nn.Transpose([1, 0, 2])`: swap the first two axes of an
`(N, H, D)`-indexed tensor. -/
def transposeT (f : ℕ → ℕ → ℕ → ℝ) : ℕ → ℕ → ℕ → ℝ :=
  fun a b c => f b a c

/-- Batched matrix multiply `x @ w` of an `(H, N, D)` tensor with an
`(H, D, D)` parameter: for each head `h`, the `(N, D)` slice of `x` times the
`(D, D)` slice of `w`. -/
def bmm (x w : ℕ → ℕ → ℕ → ℝ) (D : ℕ) : ℕ → ℕ → ℕ → ℝ :=
  fun h n dp => ∑ d ∈ Finset.range D, x h n d * w h d dp

/-- Lines 98-102 of `hgt_conv.py`:
`transpose((transpose(k_dict[src_type]) @ a_rel))` — the relation-specific
key/value transform of an `(N, H, D)` tensor by an `(H, D, D)` parameter. -/
def relTransform (f A : ℕ → ℕ → ℕ → ℝ) (D : ℕ) : ℕ → ℕ → ℕ → ℝ :=
  transposeT (bmm (transposeT f) A D)

/-- `tlx.gather(f, source_index, axis=0)`: the per-edge list of source-side
rows of a per-node tensor. -/
def gatherSrc (f : ℕ → ℕ → ℕ → ℝ) (edges : List (ℕ × ℕ)) : List (ℕ → ℕ → ℝ) :=
  edges.map (fun e => f e.1)

/-- `tlx.gather(f, target_index, axis=0)`: the per-edge list of
destination-side rows of a per-node tensor. -/
def gatherDst (f : ℕ → ℕ → ℕ → ℝ) (edges : List (ℕ × ℕ)) : List (ℕ → ℕ → ℝ) :=
  edges.map (fun e => f e.2)

/-- `HGTConv.message(k_j, q_i, v_j, rel, target_index, num_nodes)`
(lines 139-145), at dropout rate 0.  Statement by statement:
`alpha0` is `reduce_sum(k_j * q_i, axis=-1)`, `alpha1` is `alpha * rel`,
`alpha2` is `alpha / sqrt(q_i.shape[-1])` with `q_i.shape[-1] = D`,
`attn` is `dropout(segment_softmax(alpha, target_index, num_nodes))`, and
the result is `reshape(v_j * expand_dims(alpha, -1), (-1, out_channels))`:
per edge, flat feature index `c` addresses head `c / D`, dimension `c % D`. -/
noncomputable def hgtMessage (D : ℕ) (kj qi vj : List (ℕ → ℕ → ℝ))
    (rel : ℕ → ℝ) (ti : List ℕ) (numNodes : ℕ) : List (ℕ → ℝ) :=
  let alpha0 := List.zipWith (fun kf qf => fun h => ∑ d ∈ Finset.range D, kf h d * qf h d) kj qi
  let alpha1 := alpha0.map (fun f => fun h => f h * rel h)
  let alpha2 := alpha1.map (fun f => fun h => f h / Real.sqrt D)
  let attn := (softmaxPairsH (ti.zip alpha2)).map (fun p => fun h => dropout_id (p.2 h))
  List.zipWith (fun vf af => fun c => vf (c / D) (c % D) * af (c / D)) vj attn

/-- Modelled from the spec: `MessagePassing.aggregate` (the base-class segment
reduction, not under the covered sources; spec §4.4) with `aggr='sum'`:
messages are summed by target index into `num_nodes` rows, rows of
zero-in-degree nodes being the zero vector. -/
def aggregateSum (msgs : List (ℕ → ℝ)) (ti : List ℕ) (numNodes : ℕ) :
    ℕ → ℕ → ℝ :=
  fun n c =>
    if n < numNodes then (((ti.zip msgs).filter (fun p => p.1 == n)).map (fun p => p.2 c)).sum
    else 0

/-- `HGTConv.propagate` (lines 126-137) for the HGT message function: gather
per-edge inputs, run `message`, aggregate by target with `aggr='sum'`
(the base-class `update` is the identity on the reduced tensor). -/
noncomputable def propagateHGT (D : ℕ) (kk qq vv : ℕ → ℕ → ℕ → ℝ)
    (rel : ℕ → ℝ) (edges : List (ℕ × ℕ)) (numNodes : ℕ) : ℕ → ℕ → ℝ :=
  aggregateSum
    (hgtMessage D (gatherSrc kk edges) (gatherDst qq edges) (gatherSrc vv edges)
      rel (edges.map Prod.snd) numNodes)
    (edges.map Prod.snd) numNodes

/-- Input data of one node type: its node count (`x_dict[t].shape[0]`) and its
feature tensor. -/
structure NodeData where
  num : ℕ
  x : ℕ → ℕ → ℝ

/-- The learned state of `HGTConv` (constructor lines 33-78).  The per-type
dense layers `k_lin`, `q_lin`, `v_lin`, `a_lin` (with their fixed `relu6`
activation) are abstract row maps supplied by the excluded dense-linear
collaborator (spec §6); `skip`, `a_rel`, `m_rel`, `p_rel` are the learned
tensors. `group` is the constructor's aggregation-grouping scheme label. -/
structure HGTLayer where
  heads : ℕ
  outChannels : ℕ
  group : String
  kLin : String → (ℕ → ℝ) → (ℕ → ℝ)
  qLin : String → (ℕ → ℝ) → (ℕ → ℝ)
  vLin : String → (ℕ → ℝ) → (ℕ → ℝ)
  aLin : String → (ℕ → ℝ) → (ℕ → ℝ)
  skip : String → ℝ
  aRel : String → ℕ → ℕ → ℕ → ℝ
  mRel : String → ℕ → ℕ → ℕ → ℝ
  pRel : String → ℕ → ℝ

/-- `dim = out_channels // heads` (line 69 / line 82). -/
def HGTLayer.headDim (L : HGTLayer) : ℕ := L.outChannels / L.heads

/-- `'__'.join(edge_type)` (line 96). -/
def joinEdgeType (et : String × String × String) : String :=
  et.1 ++ "__" ++ et.2.1 ++ "__" ++ et.2.2

/-- `reshape(lin(x), (-1, H, D))` (lines 87-89): row `n` of the projected
features, split into heads — head `h`, dimension `d` reads flat feature
`h * D + d`. -/
def projHeads (lin : (ℕ → ℝ) → (ℕ → ℝ)) (x : ℕ → ℕ → ℝ) (D : ℕ) :
    ℕ → ℕ → ℕ → ℝ :=
  fun n h d => lin (x n) (h * D + d)

/-- `x_dict[t]` lookup (Python dict access; the claims only exercise present
keys, absent keys default to empty data). -/
def lookupX (xs : List (String × NodeData)) (t : String) : NodeData :=
  (xs.lookup t).getD ⟨0, fun _ _ => 0⟩

/-- One iteration of the edge-type loop of `HGTConv.forward` (lines 93-113):
relation transforms of the source type's keys and values, gathers, and
`propagate` keyed by the destination type's node count. -/
noncomputable def edgeTypeOut (L : HGTLayer) (xs : List (String × NodeData))
    (et : String × String × String) (edges : List (ℕ × ℕ)) : ℕ → ℕ → ℝ :=
  let D := L.headDim
  let key := joinEdgeType et
  let k := projHeads (L.kLin et.1) (lookupX xs et.1).x D
  let q := projHeads (L.qLin et.2.2) (lookupX xs et.2.2).x D
  let v := projHeads (L.vLin et.1) (lookupX xs et.1).x D
  propagateHGT D (relTransform k (L.aRel key) D) q (relTransform v (L.mRel key) D)
    (L.pRel key) edges (lookupX xs et.2.2).num

/-- `out_dict[node_type]` after the edge-type loop: the per-edge-type outputs
whose destination type is `nt`, in iteration order of `edge_index_dict`. -/
noncomputable def relOuts (L : HGTLayer) (xs : List (String × NodeData))
    (es : List ((String × String × String) × List (ℕ × ℕ))) (nt : String) :
    List (ℕ → ℕ → ℝ) :=
  (es.filter (fun r => r.1.2.2 == nt)).map (fun r => edgeTypeOut L xs r.1 r.2)

/-- Lines 117-118: `tlx.stack(outs)` followed by `reduce_sum(axis=0)`.
Stacking an empty list of tensors raises in every backend, which `none`
records; otherwise the entrywise sum over the stacked relation outputs.
Note the constructor's `group` parameter does not enter this computation. -/
def combineOuts (outs : List (ℕ → ℕ → ℝ)) : Option (ℕ → ℕ → ℝ) :=
  match outs with
  | [] => none
  | _ => some (fun n c => (outs.map (fun o => o n c)).sum)

/-- `tlx.ops.sigmoid`. -/
noncomputable def sigmoid (z : ℝ) : ℝ := 1 / (1 + Real.exp (-z))

/-- `HGTConv.forward(x_dict, edge_index_dict)` (lines 80-124): per node type,
combine the relation outputs arriving at that type, apply the output
projection `a_lin`, and blend with the original features through the
sigmoid gate `alpha = sigmoid(skip[node_type])`. -/
noncomputable def forwardHGT (L : HGTLayer) (xs : List (String × NodeData))
    (es : List ((String × String × String) × List (ℕ × ℕ))) :
    List (String × Option (ℕ → ℕ → ℝ)) :=
  xs.map (fun p =>
    (p.1, (combineOuts (relOuts L xs es p.1)).map (fun agg => fun n c =>
      sigmoid (L.skip p.1) * L.aLin p.1 (agg n) c +
        (1 - sigmoid (L.skip p.1)) * p.2.x n c)))

/-! ### Closed forms for the per-edge attention weights

The following definitions follow the words of spec §4.5 step 4 and §4.2: the
attention score of an edge, the per-group (same destination) maximum and
exponential sum, and the normalized weight.  The theorems below show the
positional pipeline of `HGTConv.message` computes exactly these. -/

/-- Spec §4.5 step 4: per-edge, per-head attention score —
`dot(key, query)` over `head_dim`, times the edge type's per-head importance
scalar, scaled by `1 / sqrt(head_dim)`. -/
noncomputable def attnScore (D : ℕ) (kk qq : ℕ → ℕ → ℕ → ℝ) (rel : ℕ → ℝ)
    (e : ℕ × ℕ) (h : ℕ) : ℝ :=
  (∑ d ∈ Finset.range D, kk e.1 h d * qq e.2 h d) * rel h / Real.sqrt D

/-- The edges sharing destination `t` — one softmax group (spec §3,
"Group Id"). -/
def sameTarget (edges : List (ℕ × ℕ)) (t : ℕ) : List (ℕ × ℕ) :=
  edges.filter (fun b => b.2 == t)

/-- Per-group score maximum over the edges sharing destination `t`. -/
noncomputable def tgtMax (edges : List (ℕ × ℕ)) (sc : ℕ × ℕ → ℕ → ℝ)
    (t h : ℕ) : ℝ :=
  listMax ((sameTarget edges t).map (fun b => sc b h))

/-- Per-group sum of shifted exponentials over the edges sharing
destination `t`. -/
noncomputable def tgtExpSum (edges : List (ℕ × ℕ)) (sc : ℕ × ℕ → ℕ → ℝ)
    (t h : ℕ) : ℝ :=
  ((sameTarget edges t).map (fun b => Real.exp (sc b h - tgtMax edges sc t h))).sum

/-- Spec §4.2 and §4.5 step 4: the normalized attention weight of edge `e` at
head `h` — its shifted exponential divided by its destination group's sum. -/
noncomputable def tgtWeight (edges : List (ℕ × ℕ)) (sc : ℕ × ℕ → ℕ → ℝ)
    (e : ℕ × ℕ) (h : ℕ) : ℝ :=
  Real.exp (sc e h - tgtMax edges sc e.2 h) / tgtExpSum edges sc e.2 h

theorem segMax_target_map (edges : List (ℕ × ℕ)) (v : ℕ × ℕ → ℝ) (t : ℕ) :
    segMax (edges.map (fun e => (e.2, v e))) t =
      listMax ((edges.filter (fun e => e.2 == t)).map v) := by
  unfold segMax
  rw [filter_map_key edges (fun e => e.2) v t, List.map_map]
  rfl

theorem segSum_target_map (edges : List (ℕ × ℕ)) (v : ℕ × ℕ → ℝ) (t : ℕ) :
    segSum (edges.map (fun e => (e.2, v e))) t =
      ((edges.filter (fun e => e.2 == t)).map v).sum := by
  unfold segSum
  rw [filter_map_key edges (fun e => e.2) v t, List.map_map]
  rfl

/-- The per-head segment softmax of target-keyed scores, collapsed to a map
over the edge list: every edge receives its closed-form normalized weight. -/
theorem softmaxPairsH_target (edges : List (ℕ × ℕ)) (sc : ℕ × ℕ → ℕ → ℝ) :
    softmaxPairsH (edges.map (fun e => (e.2, sc e))) =
      edges.map (fun e => (e.2, fun h => tgtWeight edges sc e h)) := by
  have hexp : expPairsH (edges.map (fun e => (e.2, sc e))) =
      edges.map (fun e => (e.2, fun h => Real.exp (sc e h - tgtMax edges sc e.2 h))) := by
    unfold expPairsH
    rw [List.map_map]
    apply List.map_congr_left
    intro e _
    simp only [Function.comp]
    congr 1
    funext h
    congr 1
    have : colPairs (edges.map (fun e => (e.2, sc e))) h =
        edges.map (fun e => (e.2, sc e h)) := by
      simp [colPairs, List.map_map, Function.comp]
    rw [this, segMax_target_map]
    rfl
  unfold softmaxPairsH
  rw [hexp, List.map_map]
  apply List.map_congr_left
  intro e he
  simp only [Function.comp]
  congr 1
  funext h
  have hcol : colPairs
      (edges.map (fun e => (e.2, fun h => Real.exp (sc e h - tgtMax edges sc e.2 h)))) h =
      edges.map (fun e => (e.2, Real.exp (sc e h - tgtMax edges sc e.2 h))) := by
    simp [colPairs, List.map_map, Function.comp]
  rw [hcol, segSum_target_map]
  have hsum : ((edges.filter (fun b => b.2 == e.2)).map
        (fun b => Real.exp (sc b h - tgtMax edges sc b.2 h))).sum =
      tgtExpSum edges sc e.2 h := by
    unfold tgtExpSum sameTarget
    congr 1
    apply List.map_congr_left
    intro b hb
    have : b.2 = e.2 := by simpa using (List.mem_filter.mp hb).2
    rw [this]
  rw [hsum]
  rfl

/-- `HGTConv.message` on the gathered per-edge inputs of an edge list equals,
edge by edge, the relation-specific value scaled by the closed-form
normalized attention weight of `attnScore`; flat feature index `c` addresses
head `c / D`, dimension `c % D`. -/
theorem hgtMessage_eq (D : ℕ) (kk qq vv : ℕ → ℕ → ℕ → ℝ) (rel : ℕ → ℝ)
    (edges : List (ℕ × ℕ)) (nn : ℕ) :
    hgtMessage D (gatherSrc kk edges) (gatherDst qq edges) (gatherSrc vv edges)
        rel (edges.map Prod.snd) nn =
      edges.map (fun e => fun c =>
        vv e.1 (c / D) (c % D) * tgtWeight edges (attnScore D kk qq rel) e (c / D)) := by
  unfold hgtMessage gatherSrc gatherDst
  simp only [List.zipWith_map, List.zipWith_same, List.map_map]
  have hzip : (edges.map Prod.snd).zip
      (edges.map ((fun f => fun h => f h / Real.sqrt D) ∘ ((fun f => fun h => f h * rel h) ∘
        (fun e => fun h => ∑ d ∈ Finset.range D, kk e.1 h d * qq e.2 h d)))) =
      edges.map (fun e => (e.2, attnScore D kk qq rel e)) := by
    rw [List.zip_map']
    rfl
  rw [hzip, softmaxPairsH_target, List.zipWith_map_right, List.zipWith_same]
  rfl

/-! ### Normalization facts -/

theorem softmaxPairs_fst (l : List (ℕ × ℝ)) :
    (softmaxPairs l).map Prod.fst = l.map Prod.fst := by
  simp [softmaxPairs, expPairs, List.map_map, Function.comp]

theorem zip_fst_snd {α β : Type} (l : List (α × β)) :
    (l.map Prod.fst).zip (l.map Prod.snd) = l := by
  rw [List.zip_map']
  simp

/-- Zipping the group ids back onto the flat `segment_softmax` output
recovers the keyed softmax list. -/
theorem zip_segment_softmax (scores : List ℝ) (gid : List ℕ) (nseg : ℕ)
    (hlen : gid.length = scores.length) :
    gid.zip (segment_softmax scores gid nseg) = softmaxPairs (gid.zip scores) := by
  have hfst : (softmaxPairs (gid.zip scores)).map Prod.fst = gid := by
    rw [softmaxPairs_fst]
    exact List.map_fst_zip gid scores (le_of_eq hlen)
  calc gid.zip (segment_softmax scores gid nseg)
      = ((softmaxPairs (gid.zip scores)).map Prod.fst).zip
          ((softmaxPairs (gid.zip scores)).map Prod.snd) := by
        rw [hfst]; rfl
    _ = softmaxPairs (gid.zip scores) := zip_fst_snd _

/-- The closed-form weights of any non-empty destination group sum to 1. -/
theorem tgtWeight_sum_to_one (edges : List (ℕ × ℕ)) (sc : ℕ × ℕ → ℕ → ℝ)
    (t h : ℕ) (ht : t ∈ edges.map Prod.snd) :
    ((sameTarget edges t).map (fun e => tgtWeight edges sc e h)).sum = 1 := by
  have hne : sameTarget edges t ≠ [] := by
    rcases List.mem_map.mp ht with ⟨e, he, het⟩
    intro hempty
    have hmem : e ∈ sameTarget edges t := List.mem_filter.mpr ⟨he, by simp [het]⟩
    simp [hempty] at hmem
  have hcongr : (sameTarget edges t).map (fun e => tgtWeight edges sc e h) =
      (sameTarget edges t).map
        (fun e => Real.exp (sc e h - tgtMax edges sc t h) / tgtExpSum edges sc t h) := by
    apply List.map_congr_left
    intro e he
    have h2 : e.2 = t := by simpa [sameTarget] using (List.mem_filter.mp he).2
    simp [tgtWeight, h2]
  have hpos : 0 < tgtExpSum edges sc t h := by
    apply List.sum_pos
    · intro x hx
      rcases List.mem_map.mp hx with ⟨e, _, rfl⟩
      exact Real.exp_pos _
    · simpa [tgtExpSum] using hne
  rw [hcongr, sum_map_div]
  · exact div_self (ne_of_gt hpos)

/-- C3.  For every score sequence and group assignment, the Segment Softmax
outputs restricted to any non-empty group sum to exactly 1; a group with
exactly one edge gives that edge the weight exactly 1; and in the layer's
message stage (dropout disabled) the closed-form attention weights of the
edges sharing one destination node sum to 1 per head. -/
theorem segment_softmax_normalizes :
    (∀ (scores : List ℝ) (gid : List ℕ) (nseg g : ℕ),
        gid.length = scores.length → g ∈ gid →
        segSum (gid.zip (segment_softmax scores gid nseg)) g = 1) ∧
    (∀ (scores : List ℝ) (gid : List ℕ) (nseg g : ℕ),
        gid.length = scores.length → gid.count g = 1 →
        (gid.zip (segment_softmax scores gid nseg)).filter (fun p => p.1 == g) =
          [(g, 1)]) ∧
    (∀ (D : ℕ) (kk qq : ℕ → ℕ → ℕ → ℝ) (rel : ℕ → ℝ)
        (edges : List (ℕ × ℕ)) (t h : ℕ), t ∈ edges.map Prod.snd →
        ((sameTarget edges t).map
          (fun e => tgtWeight edges (attnScore D kk qq rel) e h)).sum = 1) := by
  refine ⟨?_, ?_, ?_⟩
  · intro scores gid nseg g hlen hg
    rw [zip_segment_softmax scores gid nseg hlen]
    apply segSum_softmaxPairs
    rw [List.map_fst_zip gid scores (le_of_eq hlen)]
    exact hg
  · intro scores gid nseg g hlen hcount
    rw [zip_segment_softmax scores gid nseg hlen]
    set l := softmaxPairs (gid.zip scores) with hl
    have hfst : l.map Prod.fst = gid := by
      rw [hl, softmaxPairs_fst]
      exact List.map_fst_zip gid scores (le_of_eq hlen)
    have hsum : ((l.filter (fun p => p.1 == g)).map Prod.snd).sum = 1 := by
      have hg : g ∈ gid := List.count_pos_iff.mp (by omega)
      have := segSum_softmaxPairs (gid.zip scores) g
        (by rw [List.map_fst_zip gid scores (le_of_eq hlen)]; exact hg)
      simpa [segSum, hl] using this
    have hlength : (l.filter (fun p => p.1 == g)).length = 1 := by
      rw [← List.countP_eq_length_filter]
      have : l.countP (fun p => p.1 == g) = (l.map Prod.fst).countP (fun x => x == g) := by
        rw [List.countP_map]
        rfl
      rw [this, hfst]
      simpa [List.count] using hcount
    rcases List.length_eq_one.mp hlength with ⟨p, hp⟩
    have hpm : p ∈ l.filter (fun p => p.1 == g) := by rw [hp]; exact List.mem_cons_self _ _
    have hpg : p.1 = g := by simpa using (List.mem_filter.mp hpm).2
    have hp2 : p.2 = 1 := by
      rw [hp] at hsum
      simpa using hsum
    rw [hp]
    rw [show p = (g, (1 : ℝ)) from Prod.ext hpg hp2]
  · intro D kk qq rel edges t h ht
    exact tgtWeight_sum_to_one edges (attnScore D kk qq rel) t h ht

/-- Witness for `segment_softmax_normalizes` at concrete inputs: a two-edge
group, a singleton group, and a single-edge message-stage group. -/
theorem segment_softmax_normalizes_witness :
    ([0, 0] : List ℕ).length = ([2, 3] : List ℝ).length ∧ (0 ∈ ([0, 0] : List ℕ)) ∧
    segSum ([0, 0].zip (segment_softmax [2, 3] [0, 0] 1)) 0 = 1 ∧
    ([3] : List ℕ).count 3 = 1 ∧
    ([3].zip (segment_softmax [5] [3] 4)).filter (fun p => p.1 == 3) = [(3, 1)] ∧
    (7 ∈ ([(0, 7)] : List (ℕ × ℕ)).map Prod.snd) ∧
    ((sameTarget [(0, 7)] 7).map
      (fun e => tgtWeight [(0, 7)] (attnScore 2 (fun _ _ _ => 0) (fun _ _ _ => 0)
        (fun _ => 1)) e 0)).sum = 1 :=
  ⟨by decide, by decide,
    segment_softmax_normalizes.1 [2, 3] [0, 0] 1 0 (by decide) (by decide),
    by decide,
    segment_softmax_normalizes.2.1 [5] [3] 4 3 (by decide) (by decide),
    by decide,
    segment_softmax_normalizes.2.2 2 (fun _ _ _ => 0) (fun _ _ _ => 0) (fun _ => 1)
      [(0, 7)] 7 0 (by decide)⟩

/-- C1.  With dropout disabled, `HGTConv.message` on the gathered
relation-specific keys/values and destination queries produces, per edge, the
relation-specific value scaled by the Segment-Softmax-normalized attention
weight of `attnScore` (the dot product over `head_dim` times the per-head
importance scalar, scaled by `1/sqrt(head_dim)`), grouped by destination
node, flattened so that flat index `c` is head `c / D`, dimension `c % D`. -/
theorem hgt_message_matches_spec (D : ℕ) (kk qq vv : ℕ → ℕ → ℕ → ℝ)
    (rel : ℕ → ℝ) (edges : List (ℕ × ℕ)) (nn : ℕ) :
    hgtMessage D (gatherSrc kk edges) (gatherDst qq edges) (gatherSrc vv edges)
        rel (edges.map Prod.snd) nn =
      edges.map (fun e => fun c =>
        vv e.1 (c / D) (c % D) * tgtWeight edges (attnScore D kk qq rel) e (c / D)) :=
  hgtMessage_eq D kk qq vv rel edges nn

/-- C7.  The relation-specific key and value transforms
(`transpose(transpose(x) @ a_rel)` with the `(heads, dim, dim)` parameters)
act as a per-head linear map: for every source node `n` and head `h`, the
result row is the node's head-`h` row times the `h`-th `dim × dim` slice of
that edge type's parameter — not one matrix shared across heads. -/
theorem hgt_relation_transform_per_head (L : HGTLayer)
    (et : String × String × String) (k v : ℕ → ℕ → ℕ → ℝ) (n h dp : ℕ) :
    relTransform k (L.aRel (joinEdgeType et)) L.headDim n h dp =
      ∑ d ∈ Finset.range L.headDim, k n h d * L.aRel (joinEdgeType et) h d dp ∧
    relTransform v (L.mRel (joinEdgeType et)) L.headDim n h dp =
      ∑ d ∈ Finset.range L.headDim, v n h d * L.mRel (joinEdgeType et) h d dp :=
  ⟨rfl, rfl⟩

/-! ### Closed form of `propagate` and edge-order invariance -/

/-- `propagate` collapsed to its closed form: row `n` of the output is the
sum, over the edges with target `n`, of the weighted relation-specific
values; rows of nodes with no incoming edges are zero. -/
theorem propagateHGT_eq (D : ℕ) (kk qq vv : ℕ → ℕ → ℕ → ℝ) (rel : ℕ → ℝ)
    (edges : List (ℕ × ℕ)) (nn : ℕ) :
    propagateHGT D kk qq vv rel edges nn = fun n c =>
      if n < nn then
        ((sameTarget edges n).map (fun e =>
          vv e.1 (c / D) (c % D) * tgtWeight edges (attnScore D kk qq rel) e (c / D))).sum
      else 0 := by
  unfold propagateHGT aggregateSum
  rw [hgtMessage_eq]
  funext n c
  rw [List.zip_map' Prod.snd
    (fun e => fun c => vv e.1 (c / D) (c % D) * tgtWeight edges (attnScore D kk qq rel) e (c / D))
    edges]
  rw [filter_map_key edges (fun e => e.2)
    (fun e => fun c => vv e.1 (c / D) (c % D) * tgtWeight edges (attnScore D kk qq rel) e (c / D)) n]
  rw [List.map_map]
  rfl

theorem sameTarget_perm {edges edges2 : List (ℕ × ℕ)} (h : edges.Perm edges2)
    (t : ℕ) : (sameTarget edges t).Perm (sameTarget edges2 t) :=
  h.filter _

theorem tgtMax_perm {edges edges2 : List (ℕ × ℕ)} (h : edges.Perm edges2)
    (sc : ℕ × ℕ → ℕ → ℝ) (t hh : ℕ) :
    tgtMax edges sc t hh = tgtMax edges2 sc t hh :=
  listMax_perm ((sameTarget_perm h t).map _)

theorem tgtExpSum_perm {edges edges2 : List (ℕ × ℕ)} (h : edges.Perm edges2)
    (sc : ℕ × ℕ → ℕ → ℝ) (t hh : ℕ) :
    tgtExpSum edges sc t hh = tgtExpSum edges2 sc t hh := by
  unfold tgtExpSum
  rw [tgtMax_perm h]
  exact ((sameTarget_perm h t).map _).sum_eq

theorem tgtWeight_perm {edges edges2 : List (ℕ × ℕ)} (h : edges.Perm edges2)
    (sc : ℕ × ℕ → ℕ → ℝ) (e : ℕ × ℕ) (hh : ℕ) :
    tgtWeight edges sc e hh = tgtWeight edges2 sc e hh := by
  unfold tgtWeight
  rw [tgtMax_perm h, tgtExpSum_perm h]

/-- Permuting the edge list leaves the aggregated `propagate` output
unchanged: the per-group softmax statistics and the grouped sum are
order-independent. -/
theorem propagateHGT_perm (D : ℕ) (kk qq vv : ℕ → ℕ → ℕ → ℝ) (rel : ℕ → ℝ)
    {edges edges2 : List (ℕ × ℕ)} (h : edges.Perm edges2) (nn : ℕ) :
    propagateHGT D kk qq vv rel edges nn = propagateHGT D kk qq vv rel edges2 nn := by
  rw [propagateHGT_eq, propagateHGT_eq]
  funext n c
  by_cases hn : n < nn
  · simp only [hn, if_pos]
    have hcongr : (sameTarget edges n).map (fun e =>
        vv e.1 (c / D) (c % D) * tgtWeight edges (attnScore D kk qq rel) e (c / D)) =
        (sameTarget edges n).map (fun e =>
        vv e.1 (c / D) (c % D) * tgtWeight edges2 (attnScore D kk qq rel) e (c / D)) := by
      apply List.map_congr_left
      intro e _
      rw [tgtWeight_perm h]
    rw [hcongr]
    exact ((sameTarget_perm h n).map _).sum_eq
  · simp [hn]

theorem edgeTypeOut_perm (L : HGTLayer) (xs : List (String × NodeData))
    (et : String × String × String) {edges edges2 : List (ℕ × ℕ)}
    (h : edges.Perm edges2) :
    edgeTypeOut L xs et edges = edgeTypeOut L xs et edges2 := by
  unfold edgeTypeOut
  exact propagateHGT_perm _ _ _ _ _ h _

/-- Mapping a filtered list respects a relation that preserves the filter
condition and the mapped value. -/
theorem forall2_filter_map {α β : Type} {R : α → α → Prop} {es es2 : List α}
    (h : List.Forall₂ R es es2) (p : α → Bool) (f : α → β)
    (hp : ∀ a b, R a b → p a = p b)
    (hf : ∀ a b, R a b → f a = f b) :
    (es.filter p).map f = (es2.filter p).map f := by
  induction h with
  | nil => rfl
  | @cons a b l1 l2 hr hrest ih =>
    simp only [List.filter_cons]
    rw [hp a b hr]
    by_cases hc : p b = true
    · simp only [hc, if_pos, List.map_cons]
      rw [hf a b hr, ih]
    · simp only [hc, if_neg, ih]
      simp at hc
      simp [hc, ih]

/-- The per-destination-type output lists agree when each edge type's edge
list is permuted. -/
theorem relOuts_perm (L : HGTLayer) (xs : List (String × NodeData))
    {es es2 : List ((String × String × String) × List (ℕ × ℕ))}
    (h : List.Forall₂ (fun a b => a.1 = b.1 ∧ a.2.Perm b.2) es es2) (nt : String) :
    relOuts L xs es nt = relOuts L xs es2 nt := by
  unfold relOuts
  apply forall2_filter_map h
  · intro a b hr
    rw [hr.1]
  · intro a b hr
    rw [show a.1 = b.1 from hr.1]
    exact edgeTypeOut_perm L xs b.1 hr.2

/-- C5.  Permuting the edges within any edge types (consistently for sources
and targets) leaves the whole forward output unchanged. -/
theorem hgt_forward_edge_order_invariant (L : HGTLayer)
    (xs : List (String × NodeData))
    {es es2 : List ((String × String × String) × List (ℕ × ℕ))}
    (h : List.Forall₂ (fun a b => a.1 = b.1 ∧ a.2.Perm b.2) es es2) :
    forwardHGT L xs es = forwardHGT L xs es2 := by
  unfold forwardHGT
  apply List.map_congr_left
  intro p _
  rw [relOuts_perm L xs h p.1]

/-! ### The update stage and degenerate inputs -/

/-- C4.  For every node type present in the input, the forward pass emits
`gate × a_lin(aggregated) + (1 − gate) × original feature` with
`gate = sigmoid(skip[node_type])`, where `aggregated` is the cross-relation
combination of that type's relation outputs. -/
theorem hgt_update_gate_blend (L : HGTLayer) (xs : List (String × NodeData))
    (es : List ((String × String × String) × List (ℕ × ℕ))) (nt : String)
    (nd : NodeData) (agg : ℕ → ℕ → ℝ) (h1 : (nt, nd) ∈ xs)
    (h2 : combineOuts (relOuts L xs es nt) = some agg) :
    (nt, some (fun n c => sigmoid (L.skip nt) * L.aLin nt (agg n) c +
      (1 - sigmoid (L.skip nt)) * nd.x n c)) ∈ forwardHGT L xs es := by
  unfold forwardHGT
  have hm := List.mem_map_of_mem (fun p : String × NodeData =>
    (p.1, (combineOuts (relOuts L xs es p.1)).map (fun agg => fun n c =>
      sigmoid (L.skip p.1) * L.aLin p.1 (agg n) c +
        (1 - sigmoid (L.skip p.1)) * p.2.x n c))) h1
  simpa [h2] using hm

/-- A layer with one-dimensional constant projections, identity output
projection, zero gate parameter and all-ones relation parameters, used for
the concrete evaluations. -/
noncomputable def constLayer : HGTLayer where
  heads := 1
  outChannels := 1
  group := "sum"
  kLin := fun _ _ => fun _ => 1
  qLin := fun _ _ => fun _ => 1
  vLin := fun _ _ => fun _ => 1
  aLin := fun _ row => row
  skip := fun _ => 0
  aRel := fun _ _ _ _ => 1
  mRel := fun _ _ _ _ => 1
  pRel := fun _ _ => 1

/-- One node of one type `"A"`, feature constantly 1. -/
def ndOne : NodeData := ⟨1, fun _ _ => 1⟩

/-- Input feature map with the single node type `"A"`. -/
def xsOne : List (String × NodeData) := [("A", ndOne)]

/-- Witness for `hgt_update_gate_blend`: one node type, one edge type with an
empty edge list. -/
theorem hgt_update_gate_blend_witness :
    (("A", ndOne) ∈ xsOne) ∧
    combineOuts (relOuts constLayer xsOne [(("A", "r", "A"), [])] "A") =
      some (fun n c => ((relOuts constLayer xsOne [(("A", "r", "A"), [])] "A").map
        (fun o => o n c)).sum) ∧
    ("A", some (fun n c =>
      sigmoid (constLayer.skip "A") * constLayer.aLin "A"
        ((fun n c => ((relOuts constLayer xsOne [(("A", "r", "A"), [])] "A").map
          (fun o => o n c)).sum) n) c +
      (1 - sigmoid (constLayer.skip "A")) * ndOne.x n c)) ∈
      forwardHGT constLayer xsOne [(("A", "r", "A"), [])] :=
  ⟨List.mem_singleton.mpr rfl, rfl,
    hgt_update_gate_blend constLayer xsOne [(("A", "r", "A"), [])] "A" ndOne _
      (List.mem_singleton.mpr rfl) rfl⟩

/-- C6 counterexample: a node type that is the destination of no edge type at
all makes line 117 stack an empty list, which raises — the forward pass does
not return a row for it. -/
theorem hgt_isolated_node_type_errors :
    forwardHGT constLayer [("B", ndOne)] [] = [("B", none)] := rfl

/-- C6 as amended.  An edge type with an empty edge list and a node with zero
incoming edges are valid non-error inputs provided the node's type is the
destination of at least one edge type present in `edge_index_dict`: the
zero-in-degree node's aggregated vector is the zero vector and its output row
is the ordinary gate blend with its original feature. -/
theorem hgt_degenerate_inputs_ok (L : HGTLayer) (xs : List (String × NodeData))
    (es : List ((String × String × String) × List (ℕ × ℕ))) (nt : String)
    (nd : NodeData) (n : ℕ) (h1 : (nt, nd) ∈ xs)
    (h2 : relOuts L xs es nt ≠ [])
    (h3 : ∀ r ∈ es, r.1.2.2 = nt → ∀ e ∈ r.2, e.2 ≠ n) :
    ∃ f, (nt, some f) ∈ forwardHGT L xs es ∧ ∀ c,
      f n c = sigmoid (L.skip nt) * L.aLin nt (fun _ => 0) c +
        (1 - sigmoid (L.skip nt)) * nd.x n c := by
  classical
  have hzero : ∀ o ∈ relOuts L xs es nt, ∀ c, o n c = 0 := by
    intro o ho c
    rcases List.mem_map.mp ho with ⟨r, hr, rfl⟩
    have hres := List.mem_filter.mp hr
    have hnt : r.1.2.2 = nt := by simpa using hres.2
    have hempty : sameTarget r.2 n = [] := by
      apply List.filter_eq_nil.mpr
      intro e he
      simpa using h3 r hres.1 hnt e he
    unfold edgeTypeOut
    rw [propagateHGT_eq]
    by_cases hn : n < (lookupX xs r.1.2.2).num
    · simp [hn, hempty]
    · simp [hn]
  obtain ⟨o, outs, houts⟩ := List.exists_cons_of_ne_nil h2
  set agg : ℕ → ℕ → ℝ := fun n c => ((relOuts L xs es nt).map (fun o => o n c)).sum
    with hagg
  have hcomb : combineOuts (relOuts L xs es nt) = some agg := by
    rw [hagg, houts]
    rfl
  have haggn : agg n = fun _ => 0 := by
    funext c
    rw [hagg]
    exact List.sum_eq_zero (by
      intro x hx
      rcases List.mem_map.mp hx with ⟨o2, ho2, rfl⟩
      exact hzero o2 ho2 c)
  refine ⟨fun n c => sigmoid (L.skip nt) * L.aLin nt (agg n) c +
      (1 - sigmoid (L.skip nt)) * nd.x n c,
    hgt_update_gate_blend L xs es nt nd agg h1 hcomb, ?_⟩
  intro c
  show sigmoid (L.skip nt) * L.aLin nt (agg n) c + (1 - sigmoid (L.skip nt)) * nd.x n c =
    sigmoid (L.skip nt) * L.aLin nt (fun _ => 0) c + (1 - sigmoid (L.skip nt)) * nd.x n c
  rw [haggn]

/-- Witness for `hgt_degenerate_inputs_ok`: node type `"A"`, one edge type
targeting it with an empty edge list, node 0 with zero incoming edges. -/
theorem hgt_degenerate_inputs_ok_witness :
    (("A", ndOne) ∈ xsOne) ∧
    relOuts constLayer xsOne [(("A", "r", "A"), [])] "A" ≠ [] ∧
    (∀ r ∈ [(("A", "r", "A"), ([] : List (ℕ × ℕ)))], r.1.2.2 = "A" →
      ∀ e ∈ r.2, e.2 ≠ 0) ∧
    (∃ f, ("A", some f) ∈ forwardHGT constLayer xsOne [(("A", "r", "A"), [])] ∧ ∀ c,
      f 0 c = sigmoid (constLayer.skip "A") * constLayer.aLin "A" (fun _ => 0) c +
        (1 - sigmoid (constLayer.skip "A")) * ndOne.x 0 c) := by
  have h2 : relOuts constLayer xsOne [(("A", "r", "A"), [])] "A" ≠ [] := by
    rw [show relOuts constLayer xsOne [(("A", "r", "A"), [])] "A" =
      [edgeTypeOut constLayer xsOne ("A", "r", "A") []] from rfl]
    exact List.cons_ne_nil _ _
  have h3 : ∀ r ∈ [(("A", "r", "A"), ([] : List (ℕ × ℕ)))], r.1.2.2 = "A" →
      ∀ e ∈ r.2, e.2 ≠ 0 := by
    intro r hr hnt e he
    have : r = (("A", "r", "A"), ([] : List (ℕ × ℕ))) := List.mem_singleton.mp hr
    subst this
    cases he
  exact ⟨List.mem_singleton.mpr rfl, h2, h3,
    hgt_degenerate_inputs_ok constLayer xsOne [(("A", "r", "A"), [])] "A" ndOne 0
      (List.mem_singleton.mpr rfl) h2 h3⟩

/-! ### The `group` construction parameter -/

/-- A one-edge destination group gives that edge the attention weight 1. -/
theorem tgtWeight_singleton (sc : ℕ × ℕ → ℕ → ℝ) (e : ℕ × ℕ) (h : ℕ) :
    tgtWeight [e] sc e h = 1 := by
  have hst : sameTarget [e] e.2 = [e] := by simp [sameTarget]
  unfold tgtWeight tgtExpSum tgtMax
  rw [hst]
  simp [listMax]

theorem sigmoid_zero : sigmoid 0 = 1 / 2 := by
  unfold sigmoid
  rw [neg_zero, Real.exp_zero]
  norm_num

/-- Minimum of a list of reals, `0` on the empty list. -/
def listMin : List ℝ → ℝ
  | [] => 0
  | a :: l => l.foldl min a

/-- Modelled from the spec: the documented cross-relation aggregation-grouping
schemes (`group` in `{sum, mean, min, max}`, docstring lines 25-28 and
spec §6) applied to the per-relation values arriving at one node entry. -/
noncomputable def specGroupReduce (group : String) (vals : List ℝ) : ℝ :=
  if group == "mean" then vals.sum / vals.length
  else if group == "min" then listMin vals
  else if group == "max" then listMax vals
  else vals.sum

/-- `constLayer` with the aggregation-grouping scheme label set to "mean". -/
noncomputable def meanLayer : HGTLayer := { constLayer with group := "mean" }

/-- Two edge types, both from `"A"` to `"A"`, each with the single edge
`0 → 0`. -/
def esTwo : List ((String × String × String) × List (ℕ × ℕ)) :=
  [(("A", "r1", "A"), [(0, 0)]), (("A", "r2", "A"), [(0, 0)])]

/-- On `xsOne`, each single-edge edge type contributes exactly 1 to node 0
under `meanLayer`'s constant parameters. -/
theorem edgeTypeOut_meanLayer_single (s1 s2 : String) :
    edgeTypeOut meanLayer xsOne (s1, s2, "A") [(0, 0)] 0 0 = 1 := by
  unfold edgeTypeOut
  rw [propagateHGT_eq]
  beta_reduce
  have hnum : (lookupX xsOne ((s1, s2, "A") : String × String × String).2.2).num = 1 := rfl
  rw [hnum, if_pos Nat.zero_lt_one]
  have hst : sameTarget [((0 : ℕ), (0 : ℕ))] 0 = [(0, 0)] := by simp [sameTarget]
  rw [hst]
  rw [List.map_singleton, List.sum_singleton]
  rw [tgtWeight_singleton]
  have hD : meanLayer.headDim = 1 := rfl
  rw [hD]
  simp only [Nat.zero_div, Nat.zero_mod]
  rw [mul_one]
  show relTransform (projHeads (meanLayer.vLin s1) (lookupX xsOne s1).x 1)
      (meanLayer.mRel (joinEdgeType (s1, s2, "A"))) 1 0 0 0 = 1
  unfold relTransform transposeT bmm
  rw [Finset.sum_range_one]
  show projHeads (meanLayer.vLin s1) (lookupX xsOne s1).x 1 0 0 0 * 1 = 1
  rw [mul_one]
  rfl

/-- C2 is a code bug: the constructor stores `group` and its docstring
promises the `{sum, mean, min, max}` cross-relation combination, but
`forward` lines 117-118 always `reduce_sum` over the stacked relation
outputs.  With `group = "mean"`, two relations each contributing 1, the code
produces the blend of the sum (value 3/2), whereas the documented mean
semantics produces 1. -/
theorem hgt_group_mean_ignored :
    ∃ f, forwardHGT meanLayer xsOne esTwo = [("A", some f)] ∧ f 0 0 = 3 / 2 ∧
      sigmoid (meanLayer.skip "A") * specGroupReduce "mean" [1, 1] +
        (1 - sigmoid (meanLayer.skip "A")) * ndOne.x 0 0 = 1 ∧
      (3 / 2 : ℝ) ≠ 1 := by
  refine ⟨fun n c => sigmoid (meanLayer.skip "A") * meanLayer.aLin "A"
      ((fun n c => ((relOuts meanLayer xsOne esTwo "A").map (fun o => o n c)).sum) n) c +
      (1 - sigmoid (meanLayer.skip "A")) * ndOne.x n c, rfl, ?_, ?_, by norm_num⟩
  · have hro : relOuts meanLayer xsOne esTwo "A" =
        [edgeTypeOut meanLayer xsOne ("A", "r1", "A") [(0, 0)],
         edgeTypeOut meanLayer xsOne ("A", "r2", "A") [(0, 0)]] := rfl
    show sigmoid (meanLayer.skip "A") * meanLayer.aLin "A"
        (fun c => ((relOuts meanLayer xsOne esTwo "A").map (fun o => o 0 c)).sum) 0 +
        (1 - sigmoid (meanLayer.skip "A")) * ndOne.x 0 0 = 3 / 2
    have hskip : meanLayer.skip "A" = 0 := rfl
    have haLin : ∀ row : ℕ → ℝ, meanLayer.aLin "A" row 0 = row 0 := fun _ => rfl
    rw [hskip, sigmoid_zero, haLin]
    have hsum : ((relOuts meanLayer xsOne esTwo "A").map (fun o => o 0 0)).sum = 2 := by
      rw [hro]
      simp only [List.map_cons, List.map_nil, List.sum_cons, List.sum_nil]
      rw [edgeTypeOut_meanLayer_single, edgeTypeOut_meanLayer_single]
      norm_num
    rw [hsum]
    show (1 : ℝ) / 2 * 2 + (1 - 1 / 2) * 1 = 3 / 2
    norm_num
  · have hskip : meanLayer.skip "A" = 0 := rfl
    rw [hskip, sigmoid_zero]
    show (1 : ℝ) / 2 * specGroupReduce "mean" [1, 1] + (1 - 1 / 2) * 1 = 1
    have : specGroupReduce "mean" [1, 1] = 1 := by
      unfold specGroupReduce
      norm_num
    rw [this]
    norm_num

/-- Witness for `hgt_forward_edge_order_invariant`: swapping the two edges of
the single edge type. -/
theorem hgt_forward_edge_order_invariant_witness :
    List.Forall₂ (fun a b => a.1 = b.1 ∧ a.2.Perm b.2)
      [(("A", "r", "A"), [((0 : ℕ), (0 : ℕ)), (1, 0)])]
      [(("A", "r", "A"), [(1, 0), (0, 0)])] ∧
    forwardHGT constLayer xsOne [(("A", "r", "A"), [(0, 0), (1, 0)])] =
      forwardHGT constLayer xsOne [(("A", "r", "A"), [(1, 0), (0, 0)])] := by
  have hperm : ([((0 : ℕ), (0 : ℕ)), (1, 0)] : List (ℕ × ℕ)).Perm [(1, 0), (0, 0)] :=
    List.Perm.swap _ _ _
  have hf : List.Forall₂ (fun a b => a.1 = b.1 ∧ a.2.Perm b.2)
      [(("A", "r", "A"), [((0 : ℕ), (0 : ℕ)), (1, 0)])]
      [(("A", "r", "A"), [(1, 0), (0, 0)])] :=
    List.Forall₂.cons ⟨rfl, hperm⟩ List.Forall₂.nil
  exact ⟨hf, hgt_forward_edge_order_invariant constLayer xsOne hf⟩

/-! ### The Inspector calling convention

`gammagl/utils/inspector.py` is not part of the covered sources; modelled
from the spec (§4.4): parameter routing resolves the message function's
declared parameter names against the supplied named values and fails with a
`MissingArgument`-class error on any unmatched name. -/

/-- The error class of the message-passing engine's argument resolution. -/
inductive MPError where
  | MissingArgument : String → MPError
  deriving DecidableEq

/-- Modelled from the spec: `Inspector.distribute` (spec §4.4) — resolve each
declared parameter name against the supplied named values; a declared name
with no matching value fails the whole call with `MissingArgument`, never
silently defaulting. -/
def distribute {V : Type} : List String → List (String × V) →
    Except MPError (List (String × V))
  | [], _ => Except.ok []
  | p :: ps, supplied =>
    match supplied.lookup p with
    | some v => (distribute ps supplied).map (fun rest => (p, v) :: rest)
    | none => Except.error (MPError.MissingArgument p)

/-- The declared parameter names of `HGTConv.message` (line 139). -/
def hgtMessageParams : List String :=
  ["k_j", "q_i", "v_j", "rel", "target_index", "num_nodes"]

/-- `coll_dict` of `HGTConv.propagate` (lines 127-132): the caller's keyword
values extended with `edge_index`, `aggr` and `target_index`. -/
def collDict {V : Type} (kwargs : List (String × V))
    (edgeIndex aggr targetIndex : V) : List (String × V) :=
  kwargs ++ [("edge_index", edgeIndex), ("aggr", aggr), ("target_index", targetIndex)]

theorem distribute_missing {V : Type} (params : List String)
    (supplied : List (String × V)) (p : String) (hp : p ∈ params)
    (hnone : supplied.lookup p = none) :
    ∃ q, distribute params supplied = Except.error (MPError.MissingArgument q) := by
  induction params with
  | nil => cases hp
  | cons a ps ih =>
    rcases List.mem_cons.mp hp with rfl | hpl
    · refine ⟨p, ?_⟩
      unfold distribute
      rw [hnone]
    · cases hla : supplied.lookup a with
      | none =>
        refine ⟨a, ?_⟩
        unfold distribute
        rw [hla]
      | some v =>
        obtain ⟨q, hq⟩ := ih hpl
        refine ⟨q, ?_⟩
        unfold distribute
        rw [hla, hq]
        rfl

/-- C8.  If `HGTConv.message` declares a parameter for which `coll_dict`
(the gathered per-edge tensors plus the caller's keyword values) holds no
matching value, `propagate`'s argument resolution fails with a
`MissingArgument`-class error rather than silently substituting a default. -/
theorem inspector_missing_argument_errors {V : Type} (kwargs : List (String × V))
    (edgeIndex aggr targetIndex : V) (p : String) (hp : p ∈ hgtMessageParams)
    (hnone : (collDict kwargs edgeIndex aggr targetIndex).lookup p = none) :
    ∃ q, distribute hgtMessageParams (collDict kwargs edgeIndex aggr targetIndex) =
      Except.error (MPError.MissingArgument q) :=
  distribute_missing hgtMessageParams (collDict kwargs edgeIndex aggr targetIndex) p hp hnone

/-- Witness for `inspector_missing_argument_errors`: the caller omits
`num_nodes` from the keyword values. -/
theorem inspector_missing_argument_errors_witness :
    ("num_nodes" ∈ hgtMessageParams) ∧
    (collDict [("k_j", 0), ("q_i", 0), ("v_j", 0), ("rel", 0)] (5 : ℕ) 6 7).lookup
      "num_nodes" = none ∧
    (∃ q, distribute hgtMessageParams
      (collDict [("k_j", 0), ("q_i", 0), ("v_j", 0), ("rel", 0)] (5 : ℕ) 6 7) =
        Except.error (MPError.MissingArgument q)) :=
  ⟨by decide, by decide,
    inspector_missing_argument_errors [("k_j", 0), ("q_i", 0), ("v_j", 0), ("rel", 0)]
      5 6 7 "num_nodes" (by decide) (by decide)⟩

/-! ### Shape preconditions -/

/-- `dim = out_channels // heads` (line 69). -/
def headDimOf (outChannels heads : ℕ) : ℕ := outChannels / heads

/-- Reshape of `numel` elements to shape `(-1, width)` (line 145): the row
count is inferred, so the reshape succeeds exactly when `width` divides the
element count. -/
def reshapeRows (numel width : ℕ) : Option ℕ :=
  if width ≠ 0 ∧ numel % width = 0 then some (numel / width) else none

/-- C9.  The per-edge weighted values have `E * heads * (out_channels // heads)`
elements, and the message stage's reshape of them to width `out_channels`
succeeds (with one row per edge) for every edge count exactly when
`heads * (out_channels // heads) = out_channels`, i.e. when `heads` divides
`out_channels`. -/
theorem hgt_reshape_requires_divisibility (H C : ℕ) (hC : 0 < C) :
    (∀ E, reshapeRows (E * (H * headDimOf C H)) C = some E) ↔
      H * headDimOf C H = C := by
  constructor
  · intro hall
    have h1 := hall 1
    rw [one_mul] at h1
    unfold reshapeRows at h1
    by_cases hcond : C ≠ 0 ∧ (H * headDimOf C H) % C = 0
    · rw [if_pos hcond] at h1
      have hdiv : (H * headDimOf C H) / C = 1 := by
        simpa using h1
      have hmod := hcond.2
      have hdm := Nat.div_add_mod (H * headDimOf C H) C
      rw [hdiv, hmod] at hdm
      omega
    · rw [if_neg hcond] at h1
      cases h1
  · intro heq E
    rw [heq]
    unfold reshapeRows
    rw [if_pos ⟨hC.ne', Nat.mul_mod_left E C⟩, Nat.mul_div_cancel E hC]

/-- Witness for `hgt_reshape_requires_divisibility` at `heads = 2`,
`out_channels = 4`, three edges. -/
theorem hgt_reshape_requires_divisibility_witness :
    0 < 4 ∧ 2 * headDimOf 4 2 = 4 ∧
    reshapeRows (3 * (2 * headDimOf 4 2)) 4 = some 3 :=
  ⟨by decide, by decide,
    (hgt_reshape_requires_divisibility 2 4 (by decide)).mpr (by decide) 3⟩

/-- Element-wise binary broadcasting of two trailing widths, as every
supported backend implements for the `+` of line 121. -/
def broadcastWidth (a b : ℕ) : Option ℕ :=
  if a = b then some a else if a = 1 then some b else if b = 1 then some a
  else none

/-- Line 121, `alpha * out + (1 - alpha) * x_dict[node_type]`: the left
addend has width `out_channels`, the right has width `in_channels[t]`
(`alpha` is a scalar, so the scalings preserve the widths). -/
def blendWidth (outChannels inChannels : ℕ) : Option ℕ :=
  broadcastWidth outChannels inChannels

/-- C10 counterexample: with `in_channels[t] = 1` and `out_channels = 2` the
widths differ, yet the gate blend broadcasts and succeeds — forward does not
require `in_channels[t] = out_channels`. -/
theorem hgt_blend_broadcasts_width_one :
    blendWidth 2 1 = some 2 ∧ (1 : ℕ) ≠ 2 := by decide

/-- C10 as amended.  The residual gate blend is well-formed exactly when
`in_channels[t] = out_channels`, or one of the two widths is 1 (broadcast);
when both widths exceed 1 and differ, the blend is a shape-mismatch
failure. -/
theorem hgt_blend_width_condition (co ci : ℕ) :
    (blendWidth co ci).isSome ↔ (ci = co ∨ ci = 1 ∨ co = 1) := by
  unfold blendWidth broadcastWidth
  split_ifs <;> simp <;> omega

end GammaGL
